import Mathlib

/-!
Verification of the wordle-rust core (`src/lib.rs`) against its
natural-language specification.

Modelling conventions:
* Rust `String` values are modelled as `List Char`.  The game only deals
  with single-byte (ASCII) words, for which the Rust byte length
  (`str::len`) coincides with the character count, so the length checks
  of the source are modelled on `List.length`.
* The `counter::Counter<char>` multiset is modelled as a function
  `Char → Nat` (a key absent from the counter reads as `0`, as in the
  `counter` crate's `Index` implementation); `contains_key` is modelled
  as membership of the character in the target word, since the counter's
  key set is exactly the set of characters of the target word.
* `Vec::push` appends at the end of the list; `slice::binary_search` is
  modelled by `binarySearchGo`, a fuel-indexed version of the Rust
  iterative loop (the fuel starts at the list length, which bounds the
  number of iterations because the search window shrinks at every step).
* I/O (file reading, printing) and randomness in `from_config` are
  abstracted: the word file is passed as its list of lines and the
  random choice as an index `pick`.
-/

namespace WordleRust

/-- Per-letter feedback, `LetterValidity` in `src/lib.rs`. -/
inductive LetterValidity
  | correct
  | wrongPos
  | incorrect
deriving DecidableEq

/-- Words are lists of (ASCII) characters. -/
abbrev Word : Type := List Char

/-- Result of a guess attempt, `GuessResult` in `src/lib.rs`. -/
inductive GuessResult
  | ok (v : List LetterValidity)
  | notInDict
  | alreadyUsed
  | invalid
deriving DecidableEq

/-- Game state after the player performs a guess, `GameResult` in `src/lib.rs`. -/
inductive GameResult
  | win
  | cont
  | outOfGuesses
deriving DecidableEq

/-- Return value of `WordleSession::guess`: `Result<GameResult, GuessResult>`. -/
inductive GuessOutcome
  | ok (r : GameResult)
  | err (e : GuessResult)
deriving DecidableEq

/-- `WordleGame` of `src/lib.rs`: the immutable starting conditions. -/
structure WordleGame where
  word : Word
  word_list : List Word
  word_len : Nat
  max_guesses : Nat
deriving DecidableEq

/-- `WordleSession` of `src/lib.rs`: a game plus the guesses made so far. -/
structure WordleSession where
  game : WordleGame
  guesses : List (Word × List LetterValidity)
deriving DecidableEq

/-- `WordleSession::new`. -/
def WordleSession.new (g : WordleGame) : WordleSession :=
  { game := g, guesses := [] }

/-- `letter_count[&c] -= 1` on the modelled counter. -/
def decr (cnt : Char → Nat) (c : Char) : Char → Nat :=
  fun x => if x = c then cnt x - 1 else cnt x

/-- The counter `self.game.word.chars().collect()`. -/
def letterCount (t : Word) : Char → Nat :=
  fun c => t.count c

/-- First pass of `eval_valid`: the list `ps` pairs each guess character
with the target character at the same index (`(c, target[i])`); exact
matches are marked `correct` and decrement the counter, the rest are
tentatively `incorrect`. -/
def pass1 (cnt : Char → Nat) : List (Char × Char) → (Char → Nat) × List LetterValidity
  | [] => (cnt, [])
  | p :: rest =>
    if p.2 = p.1 then
      let q := pass1 (decr cnt p.1) rest
      (q.1, LetterValidity.correct :: q.2)
    else
      let q := pass1 cnt rest
      (q.1, LetterValidity.incorrect :: q.2)

/-- Second pass of `eval_valid`: `l` pairs each guess character with its
tentative mark; a tentative `incorrect` whose letter still has a
nonzero remaining count becomes `wrongPos` and consumes one count. -/
def pass2 (t : Word) (cnt : Char → Nat) : List (Char × LetterValidity) → List LetterValidity
  | [] => []
  | p :: rest =>
    match p.2 with
    | LetterValidity.incorrect =>
      if p.1 ∈ t ∧ cnt p.1 ≠ 0 then
        LetterValidity.wrongPos :: pass2 t (decr cnt p.1) rest
      else
        LetterValidity.incorrect :: pass2 t cnt rest
    | v => v :: pass2 t cnt rest

/-- `WordleSession::eval_valid`. -/
def WordleSession.eval_valid (s : WordleSession) (w : Word) : List LetterValidity :=
  let q := pass1 (letterCount s.game.word) (w.zip s.game.word)
  pass2 s.game.word q.1 (w.zip q.2)

/-- Lexicographic comparison of words, as Rust's `Ord` for `String`
(byte-wise lexicographic order; on ASCII this is character order). -/
def lexCompare : Word → Word → Ordering
  | [], [] => Ordering.eq
  | [], _ :: _ => Ordering.lt
  | _ :: _, [] => Ordering.gt
  | a :: as, b :: bs =>
    if a < b then Ordering.lt
    else if b < a then Ordering.gt
    else lexCompare as bs

/-- `a ≤ b` in the dictionary order used for sorting and searching. -/
def wordLe (a b : Word) : Prop := lexCompare a b ≠ Ordering.gt

instance wordLeDec : DecidableRel wordLe := fun a b =>
  inferInstanceAs (Decidable (lexCompare a b ≠ Ordering.gt))

/-- The loop of `slice::binary_search`, searching `x` in the window
`[left, right)` of `l`.  The extra `fuel` argument only makes the
recursion structural: the window shrinks at every iteration, so the
loop runs at most `l.length` times and callers pass `fuel = l.length`,
which makes the `fuel = 0` branch unreachable while the window is
nonempty. -/
def binarySearchGo (l : List Word) (x : Word) : Nat → Nat → Nat → Bool
  | 0, _, _ => false
  | fuel + 1, left, right =>
    if left < right then
      match lexCompare (l.getD (left + (right - left) / 2) []) x with
      | Ordering.lt => binarySearchGo l x fuel (left + (right - left) / 2 + 1) right
      | Ordering.gt => binarySearchGo l x fuel left (left + (right - left) / 2)
      | Ordering.eq => true
    else false

/-- `l.binary_search(&x).is_ok()`. -/
def binarySearch (l : List Word) (x : Word) : Bool :=
  binarySearchGo l x l.length 0 l.length

/-- `WordleSession::eval`: the three rejection checks in source order,
then the letter evaluation. -/
def WordleSession.eval (s : WordleSession) (w : Word) : GuessResult :=
  if w.length ≠ s.game.word_len then
    GuessResult.invalid
  else if s.guesses.any (fun p => decide (p.1 = w)) then
    GuessResult.alreadyUsed
  else if binarySearch s.game.word_list w = false then
    GuessResult.notInDict
  else
    GuessResult.ok (s.eval_valid w)

/-- `WordleSession::guess`: on a valid guess push the record, then
decide the game outcome; otherwise report the rejection and leave the
session unchanged.  The mutation of `self` is modelled by returning the
new session alongside the result. -/
def WordleSession.guess (s : WordleSession) (w : Word) : GuessOutcome × WordleSession :=
  match s.eval w with
  | GuessResult.ok r =>
    let s' : WordleSession := { game := s.game, guesses := s.guesses ++ [(w, r)] }
    if s.game.word = w then
      (GuessOutcome.ok GameResult.win, s')
    else if s'.guesses.length = s.game.max_guesses then
      (GuessOutcome.ok GameResult.outOfGuesses, s')
    else
      (GuessOutcome.ok GameResult.cont, s')
  | e => (GuessOutcome.err e, s)

/-- `WordleGame::from_config`.  The word file is abstracted to the list
of its lines and `SliceRandom::choose` to the index `pick` (reduced
modulo the list length); `None` models the `Err` return for an empty
word file.  I/O failures while opening the file are outside the model. -/
def WordleGame.from_config (lines : List Word) (pick : Nat) (mg : Nat) : Option WordleGame :=
  if lines.isEmpty then
    none
  else
    let ws := lines.mergeSort (fun a b => decide (wordLe a b))
    some { word := ws.getD (pick % ws.length) [],
           word_list := ws,
           word_len := (ws.headD []).length,
           max_guesses := mg }

/-- Checked first pass: models the two partial operations of pass 1 of
`eval_valid` — the lookup `self.game.word.chars().nth(i).unwrap()`
(`none` when the index is out of the target) and the decrement
`letter_count[&c] -= 1` (`none` on `usize` underflow, i.e. when the
count is already `0`). -/
def pass1Checked (t : Word) : Nat → (Char → Nat) → Word → Option ((Char → Nat) × List LetterValidity)
  | _, cnt, [] => some (cnt, [])
  | i, cnt, c :: rest =>
    match t[i]? with
    | none => none
    | some tc =>
      if tc = c then
        if cnt c = 0 then
          none
        else
          match pass1Checked t (i + 1) (decr cnt c) rest with
          | none => none
          | some q => some (q.1, LetterValidity.correct :: q.2)
      else
        match pass1Checked t (i + 1) cnt rest with
        | none => none
        | some q => some (q.1, LetterValidity.incorrect :: q.2)

/-- Checked `eval_valid`: pass 2 decrements only under a nonzero guard
and reads absent keys as `0`, so it has no partial operation. -/
def evalValidChecked (t : Word) (g : Word) : Option (List LetterValidity) :=
  match pass1Checked t 0 (letterCount t) g with
  | none => none
  | some q => some (pass2 t q.1 (g.zip q.2))

/-- Number of guess positions whose letter is `c` and whose mark is
`correct` or `wrongPos`. -/
def markedCount (g : Word) (r : List LetterValidity) (c : Char) : Nat :=
  (g.zip r).countP (fun p => decide (p.1 = c ∧ p.2 ≠ LetterValidity.incorrect))

/-- Number of exact-match positions for letter `c` among the pairs
(guess character, target character). -/
def matchCount (ps : List (Char × Char)) (c : Char) : Nat :=
  ps.countP (fun p => decide (p.2 = p.1 ∧ p.1 = c))

/-- Marked (`correct` or `wrongPos`) pairs for letter `c`. -/
def markedPairCount (l : List (Char × LetterValidity)) (c : Char) : Nat :=
  l.countP (fun p => decide (p.1 = c ∧ p.2 ≠ LetterValidity.incorrect))

/-- The game of test `eval1`/`eval3`/`eval4`/`guess1`/`guess2` in `src/lib.rs`. -/
def gameAaaaa : WordleGame :=
  { word := ['a','a','a','a','a'],
    word_list := [['a','a','a','a','a'], ['b','b','b','b','b']],
    word_len := 5,
    max_guesses := 2 }

/-- A fresh session on `gameAaaaa`. -/
def sessionAaaaa : WordleSession :=
  { game := gameAaaaa, guesses := [] }

/-- The game of test `eval5` in `src/lib.rs`. -/
def gameAbaba : WordleGame :=
  { word := ['a','b','a','b','a'],
    word_list := [['a','b','a','b','a'], ['b','a','b','a','b']],
    word_len := 5,
    max_guesses := 2 }

/-- A fresh session on `gameAbaba`. -/
def sessionAbaba : WordleSession :=
  { game := gameAbaba, guesses := [] }

/-- A game with a zero guess budget (accepted by the code although the
spec asks for a positive one). -/
def gameZero : WordleGame :=
  { word := ['a','a','a','a','a'],
    word_list := [['a','a','a','a','a'], ['b','b','b','b','b']],
    word_len := 5,
    max_guesses := 0 }

/-- A fresh session on `gameZero`. -/
def sessionZero : WordleSession :=
  { game := gameZero, guesses := [] }

/-- `r'` produced by one accepted guess, tracking the result reported
to the caller: a rejected guess keeps the previous result. -/
def nextResult (r : Option GameResult) : GuessOutcome → Option GameResult
  | GuessOutcome.ok gr => some gr
  | GuessOutcome.err _ => r

/-- Sessions reachable from a fresh session by a driving loop that
stops after the first terminal (`win` or `outOfGuesses`) result;
`r` is the last game result reported (none before the first accepted
guess). -/
inductive Reach (g : WordleGame) : WordleSession → Option GameResult → Prop
  | init : Reach g (WordleSession.new g) none
  | step (s : WordleSession) (r : Option GameResult) (w : Word) :
      Reach g s r →
      r ≠ some GameResult.win →
      r ≠ some GameResult.outOfGuesses →
      Reach g (s.guess w).2 (nextResult r (s.guess w).1)

/-! ### Properties of the dictionary order and of binary search -/

theorem lexCompare_self (a : Word) : lexCompare a a = Ordering.eq := by
  induction a with
  | nil => rfl
  | cons c cs ih => simp [lexCompare, lt_irrefl, ih]

theorem lexCompare_eq_iff : ∀ a b : Word, lexCompare a b = Ordering.eq ↔ a = b
  | [], [] => by simp [lexCompare]
  | [], _ :: _ => by simp [lexCompare]
  | _ :: _, [] => by simp [lexCompare]
  | a :: as, b :: bs => by
    simp only [lexCompare]
    rcases lt_trichotomy a b with h | h | h
    · simp [h, ne_of_lt h]
    · subst h
      simp [lt_irrefl, lexCompare_eq_iff as bs]
    · have hne : a ≠ b := ne_of_gt h
      simp [h, not_lt_of_gt h, hne]

theorem lexCompare_swap : ∀ a b : Word,
    lexCompare a b = Ordering.lt ↔ lexCompare b a = Ordering.gt
  | [], [] => by simp [lexCompare]
  | [], _ :: _ => by simp [lexCompare]
  | _ :: _, [] => by simp [lexCompare]
  | a :: as, b :: bs => by
    simp only [lexCompare]
    rcases lt_trichotomy a b with h | h | h
    · simp [h, not_lt_of_gt h]
    · subst h
      simp [lt_irrefl, lexCompare_swap as bs]
    · simp [h, not_lt_of_gt h]

theorem binarySearchGo_mem (l : List Word) (x : Word) :
    ∀ fuel left right : Nat, right ≤ l.length →
      binarySearchGo l x fuel left right = true → x ∈ l := by
  intro fuel
  induction fuel with
  | zero =>
    intro left right _ h
    simp [binarySearchGo] at h
  | succ n ih =>
    intro left right hr h
    rw [binarySearchGo] at h
    split at h
    · rename_i hlr
      cases hcmp : lexCompare (l.getD (left + (right - left) / 2) []) x with
      | lt =>
        rw [hcmp] at h
        exact ih _ _ hr h
      | gt =>
        rw [hcmp] at h
        have hmidlt : left + (right - left) / 2 < right := by
          have := Nat.div_lt_self (show 0 < right - left by omega) (show 1 < 2 by omega)
          omega
        exact ih _ _ (by omega) h
      | eq =>
        have hmidlt : left + (right - left) / 2 < right := by
          have := Nat.div_lt_self (show 0 < right - left by omega) (show 1 < 2 by omega)
          omega
        have hlen : left + (right - left) / 2 < l.length := by omega
        rw [List.getD_eq_getElem l _ hlen] at hcmp
        have := (lexCompare_eq_iff _ _).mp hcmp
        rw [← this]
        exact List.getElem_mem hlen
    · cases h

theorem binarySearchGo_complete (l : List Word) (x : Word)
    (hs : List.Pairwise wordLe l) :
    ∀ fuel left right : Nat, right ≤ l.length → right - left ≤ fuel →
      (∃ j, left ≤ j ∧ j < right ∧ l[j]? = some x) →
      binarySearchGo l x fuel left right = true := by
  intro fuel
  induction fuel with
  | zero =>
    intro left right _ hfuel hex
    obtain ⟨j, hlj, hjr, _⟩ := hex
    omega
  | succ n ih =>
    intro left right hr hfuel hex
    obtain ⟨j, hlj, hjr, hj⟩ := hex
    have hlr : left < right := lt_of_le_of_lt hlj hjr
    have hmidlt : left + (right - left) / 2 < right := by
      have := Nat.div_lt_self (show 0 < right - left by omega) (show 1 < 2 by omega)
      omega
    have hmidlen : left + (right - left) / 2 < l.length := by omega
    have hjlen : j < l.length := by omega
    have hgd : l.getD (left + (right - left) / 2) [] = l.get ⟨left + (right - left) / 2, hmidlen⟩ :=
      List.getD_eq_getElem l _ hmidlen
    have hjx : l.get ⟨j, hjlen⟩ = x := by
      have h1 : l[j]? = some (l.get ⟨j, hjlen⟩) := List.getElem?_eq_getElem hjlen
      rw [h1] at hj
      exact Option.some.inj hj
    rw [binarySearchGo, if_pos hlr]
    cases hcmp : lexCompare (l.getD (left + (right - left) / 2) []) x with
    | lt =>
      have hjmid : left + (right - left) / 2 < j := by
        by_contra hn
        push_neg at hn
        rcases Nat.lt_or_ge j (left + (right - left) / 2) with hlt | hge
        · have hw : wordLe (l.get ⟨j, hjlen⟩) (l.get ⟨left + (right - left) / 2, hmidlen⟩) :=
            List.pairwise_iff_getElem.mp hs j _ hjlen hmidlen hlt
          unfold wordLe at hw
          rw [hjx] at hw
          rw [hgd] at hcmp
          exact hw ((lexCompare_swap _ _).mp hcmp)
        · have hje : j = left + (right - left) / 2 := by omega
          have hgg : l.get ⟨left + (right - left) / 2, hmidlen⟩ = x := by
            rw [← hjx]
            congr 1
            exact Fin.ext hje.symm
          rw [hgd, hgg, lexCompare_self] at hcmp
          cases hcmp
      exact ih _ _ hr (by omega) ⟨j, by omega, hjr, hj⟩
    | gt =>
      have hjmid : j < left + (right - left) / 2 := by
        by_contra hn
        push_neg at hn
        rcases Nat.lt_or_ge (left + (right - left) / 2) j with hlt | hge
        · have hw : wordLe (l.get ⟨left + (right - left) / 2, hmidlen⟩) (l.get ⟨j, hjlen⟩) :=
            List.pairwise_iff_getElem.mp hs _ j hmidlen hjlen hlt
          unfold wordLe at hw
          rw [hjx] at hw
          rw [hgd] at hcmp
          exact hw hcmp
        · have hje : j = left + (right - left) / 2 := by omega
          have hgg : l.get ⟨left + (right - left) / 2, hmidlen⟩ = x := by
            rw [← hjx]
            congr 1
            exact Fin.ext hje.symm
          rw [hgd, hgg, lexCompare_self] at hcmp
          cases hcmp
      exact ih _ _ (by omega) (by omega) ⟨j, hlj, hjmid, hj⟩
    | eq => rfl

theorem binarySearch_eq_true_iff (l : List Word) (x : Word)
    (hs : List.Pairwise wordLe l) :
    binarySearch l x = true ↔ x ∈ l := by
  constructor
  · exact fun h => binarySearchGo_mem l x l.length 0 l.length le_rfl h
  · intro hmem
    obtain ⟨j, hjlen, hjx⟩ := List.getElem_of_mem hmem
    refine binarySearchGo_complete l x hs l.length 0 l.length le_rfl (by omega) ⟨j, Nat.zero_le _, hjlen, ?_⟩
    rw [List.getElem?_eq_getElem hjlen, hjx]

/-! ### Properties of the two evaluation passes -/

theorem markedCount_eq (g : Word) (r : List LetterValidity) (c : Char) :
    markedCount g r c = markedPairCount (g.zip r) c := rfl

theorem pass1_snd : ∀ (ps : List (Char × Char)) (cnt : Char → Nat),
    (pass1 cnt ps).2 =
      ps.map (fun p => if p.2 = p.1 then LetterValidity.correct else LetterValidity.incorrect)
  | [], cnt => rfl
  | p :: rest, cnt => by
    by_cases h : p.2 = p.1
    · simp [pass1, h, pass1_snd rest]
    · simp [pass1, h, pass1_snd rest]

theorem pass1_fst : ∀ (ps : List (Char × Char)) (cnt : Char → Nat) (c : Char),
    (pass1 cnt ps).1 c = cnt c - matchCount ps c
  | [], cnt, c => by simp [pass1, matchCount]
  | p :: rest, cnt, c => by
    by_cases h : p.2 = p.1
    · have h1 : (pass1 cnt (p :: rest)).1 c = (pass1 (decr cnt p.1) rest).1 c := by
        simp [pass1, h]
      rw [h1, pass1_fst rest (decr cnt p.1) c]
      by_cases hc : p.1 = c
      · have h2 : matchCount (p :: rest) c = matchCount rest c + 1 := by
          simp [matchCount, List.countP_cons, h, hc]
        have h3 : decr cnt p.1 c = cnt c - 1 := by
          simp [decr, hc.symm]
        rw [h2, h3]
        omega
      · have h2 : matchCount (p :: rest) c = matchCount rest c := by
          simp [matchCount, List.countP_cons, hc]
        have h3 : decr cnt p.1 c = cnt c := by
          have hcc : ¬c = p.1 := fun hx => hc hx.symm
          simp [decr, hcc]
        rw [h2, h3]
    · have h1 : (pass1 cnt (p :: rest)).1 c = (pass1 cnt rest).1 c := by
        simp [pass1, h]
      have h2 : matchCount (p :: rest) c = matchCount rest c := by
        simp [matchCount, List.countP_cons, h]
      rw [h1, h2, pass1_fst rest cnt c]

theorem matchCount_zip_le : ∀ (g t : Word) (c : Char), matchCount (g.zip t) c ≤ t.count c
  | [], t, c => by simp [matchCount]
  | a :: gs, [], c => by simp [matchCount]
  | a :: gs, b :: ts, c => by
    have ih := matchCount_zip_le gs ts c
    have hcnt : (b :: ts).count c = ts.count c + if b == c then 1 else 0 :=
      List.count_cons c b ts
    by_cases h : b = a ∧ a = c
    · obtain ⟨hba, hac⟩ := h
      have h1 : matchCount ((a :: gs).zip (b :: ts)) c = matchCount (gs.zip ts) c + 1 := by
        simp [matchCount, List.countP_cons, hba, hac]
      have h2 : (b == c) = true := by
        rw [beq_iff_eq, hba, hac]
      have h3 : (if b == c then 1 else 0) = 1 := by simp [h2]
      rw [h1, hcnt, h3]
      omega
    · have h1 : matchCount ((a :: gs).zip (b :: ts)) c = matchCount (gs.zip ts) c := by
        simp only [List.zip_cons_cons, matchCount, List.countP_cons]
        simp [h]
      rw [h1, hcnt]
      split <;> omega

theorem pass2_length (t : Word) : ∀ (l : List (Char × LetterValidity)) (cnt : Char → Nat),
    (pass2 t cnt l).length = l.length
  | [], _ => rfl
  | (a, v) :: rest, cnt => by
    cases v with
    | incorrect =>
      by_cases h : a ∈ t ∧ cnt a ≠ 0
      · simp [pass2, h, pass2_length t rest]
      · simp [pass2, h, pass2_length t rest]
    | correct => simp [pass2, pass2_length t rest]
    | wrongPos => simp [pass2, pass2_length t rest]

theorem pass2_preserve (t : Word) : ∀ (l : List (Char × LetterValidity)) (cnt : Char → Nat)
    (i : Nat) (a : Char) (v : LetterValidity),
    l[i]? = some (a, v) → v ≠ LetterValidity.incorrect →
    (pass2 t cnt l)[i]? = some v
  | [], _, i, a, v => by simp
  | (b, u) :: rest, cnt, 0, a, v => by
    intro hget hv
    have hb : b = a ∧ u = v := by
      simpa using hget
    obtain ⟨hb1, hb2⟩ := hb
    subst hb1; subst hb2
    cases u with
    | incorrect => exact absurd rfl hv
    | correct => simp [pass2]
    | wrongPos => simp [pass2]
  | (b, u) :: rest, cnt, i + 1, a, v => by
    intro hget hv
    have hget' : rest[i]? = some (a, v) := by simpa using hget
    cases u with
    | incorrect =>
      by_cases h : b ∈ t ∧ cnt b ≠ 0
      · simpa [pass2, h] using pass2_preserve t rest (decr cnt b) i a v hget' hv
      · simpa [pass2, h] using pass2_preserve t rest cnt i a v hget' hv
    | correct => simpa [pass2] using pass2_preserve t rest cnt i a v hget' hv
    | wrongPos => simpa [pass2] using pass2_preserve t rest cnt i a v hget' hv

theorem markedPairCount_cons (b : Char) (u : LetterValidity)
    (rest : List (Char × LetterValidity)) (c : Char) :
    markedPairCount ((b, u) :: rest) c =
      markedPairCount rest c + if b = c ∧ u ≠ LetterValidity.incorrect then 1 else 0 := by
  unfold markedPairCount
  rw [List.countP_cons]
  congr 1
  by_cases h : b = c ∧ u ≠ LetterValidity.incorrect
  · simp [h]
  · simp [h]

theorem matchCount_cons (a b : Char) (rest : List (Char × Char)) (c : Char) :
    matchCount ((a, b) :: rest) c =
      matchCount rest c + if b = a ∧ a = c then 1 else 0 := by
  unfold matchCount
  rw [List.countP_cons]
  congr 1
  by_cases h : b = a ∧ a = c
  · simp [h]
  · simp [h]

theorem pass2_marked_le (t : Word) : ∀ (l : List (Char × LetterValidity)) (cnt : Char → Nat)
    (c : Char),
    markedPairCount ((l.map Prod.fst).zip (pass2 t cnt l)) c ≤ markedPairCount l c + cnt c
  | [], cnt, c => by simp [pass2, markedPairCount]
  | (b, u) :: rest, cnt, c => by
    cases u with
    | incorrect =>
      by_cases h : b ∈ t ∧ cnt b ≠ 0
      · have ih := pass2_marked_le t rest (decr cnt b) c
        have hl : pass2 t cnt ((b, LetterValidity.incorrect) :: rest) =
            LetterValidity.wrongPos :: pass2 t (decr cnt b) rest := by
          simp [pass2, h]
        rw [hl, List.map_cons, List.zip_cons_cons]
        dsimp only
        rw [markedPairCount_cons, markedPairCount_cons]
        have e2 : (if b = c ∧ LetterValidity.incorrect ≠ LetterValidity.incorrect
            then 1 else 0) = 0 := by simp
        rw [e2]
        by_cases hbc : b = c
        · have hdec : decr cnt b c = cnt c - 1 := by
            have hcc : c = b := hbc.symm
            simp [decr, hcc]
          rw [hdec] at ih
          have hpos : cnt c ≠ 0 := hbc ▸ h.2
          have e1 : (if b = c ∧ LetterValidity.wrongPos ≠ LetterValidity.incorrect
              then 1 else 0) = 1 := by simp [hbc]
          rw [e1]
          omega
        · have hdec : decr cnt b c = cnt c := by
            have hcc : ¬c = b := fun hx => hbc hx.symm
            simp [decr, hcc]
          rw [hdec] at ih
          have e1 : (if b = c ∧ LetterValidity.wrongPos ≠ LetterValidity.incorrect
              then 1 else 0) = 0 := by simp [hbc]
          rw [e1]
          omega
      · have ih := pass2_marked_le t rest cnt c
        have hl : pass2 t cnt ((b, LetterValidity.incorrect) :: rest) =
            LetterValidity.incorrect :: pass2 t cnt rest := by
          simp [pass2, h]
        rw [hl, List.map_cons, List.zip_cons_cons]
        dsimp only
        rw [markedPairCount_cons, markedPairCount_cons]
        have e2 : (if b = c ∧ LetterValidity.incorrect ≠ LetterValidity.incorrect
            then 1 else 0) = 0 := by simp
        rw [e2]
        omega
    | correct =>
      have ih := pass2_marked_le t rest cnt c
      have hl : pass2 t cnt ((b, LetterValidity.correct) :: rest) =
          LetterValidity.correct :: pass2 t cnt rest := by
        simp [pass2]
      rw [hl, List.map_cons, List.zip_cons_cons]
      dsimp only
      rw [markedPairCount_cons, markedPairCount_cons]
      omega
    | wrongPos =>
      have ih := pass2_marked_le t rest cnt c
      have hl : pass2 t cnt ((b, LetterValidity.wrongPos) :: rest) =
          LetterValidity.wrongPos :: pass2 t cnt rest := by
        simp [pass2]
      rw [hl, List.map_cons, List.zip_cons_cons]
      dsimp only
      rw [markedPairCount_cons, markedPairCount_cons]
      omega

theorem pass2_of_marks (t : Word) : ∀ (l : List (Char × LetterValidity)) (cnt : Char → Nat),
    (∀ p ∈ l, p.2 ≠ LetterValidity.incorrect) → pass2 t cnt l = l.map Prod.snd
  | [], cnt, _ => rfl
  | (b, u) :: rest, cnt, h => by
    have hrest : ∀ p ∈ rest, p.2 ≠ LetterValidity.incorrect :=
      fun p hp => h p (List.mem_cons_of_mem _ hp)
    cases u with
    | incorrect => exact absurd rfl (h (b, LetterValidity.incorrect) (List.mem_cons_self _ _))
    | correct => simp [pass2, pass2_of_marks t rest cnt hrest]
    | wrongPos => simp [pass2, pass2_of_marks t rest cnt hrest]

/-! ### Properties of eval_valid -/

theorem eval_valid_length (s : WordleSession) (w : Word)
    (hw : w.length = s.game.word.length) :
    (s.eval_valid w).length = w.length := by
  simp only [WordleSession.eval_valid]
  rw [pass2_length]
  have h1 : (pass1 (letterCount s.game.word) (w.zip s.game.word)).2.length = w.length := by
    rw [pass1_snd, List.length_map, List.length_zip, hw, Nat.min_self]
  rw [List.length_zip, h1, Nat.min_self]

theorem markedPairCount_map_eq (ps : List (Char × Char)) (c : Char) :
    markedPairCount ((ps.map Prod.fst).zip (ps.map (fun p =>
      if p.2 = p.1 then LetterValidity.correct else LetterValidity.incorrect))) c =
    matchCount ps c := by
  rw [List.zip_map']
  unfold markedPairCount matchCount
  rw [List.countP_map]
  apply List.countP_congr
  intro p hp
  by_cases hm : p.2 = p.1
  · simp [Function.comp, hm]
  · simp [Function.comp, hm]

theorem eval_valid_marked_le (s : WordleSession) (w : Word)
    (hw : w.length = s.game.word.length) (c : Char) :
    markedCount w (s.eval_valid w) c ≤ s.game.word.count c := by
  simp only [WordleSession.eval_valid]
  rw [markedCount_eq]
  have hps1 : (pass1 (letterCount s.game.word) (w.zip s.game.word)).2.length = w.length := by
    rw [pass1_snd, List.length_map, List.length_zip, hw, Nat.min_self]
  have hfst : (w.zip (pass1 (letterCount s.game.word) (w.zip s.game.word)).2).map Prod.fst = w :=
    List.map_fst_zip _ _ (by rw [hps1])
  have key := pass2_marked_le s.game.word
    (w.zip (pass1 (letterCount s.game.word) (w.zip s.game.word)).2)
    (pass1 (letterCount s.game.word) (w.zip s.game.word)).1 c
  rw [hfst] at key
  have hw2 : (w.zip s.game.word).map Prod.fst = w :=
    List.map_fst_zip _ _ (le_of_eq hw)
  have hin : markedPairCount (w.zip (pass1 (letterCount s.game.word) (w.zip s.game.word)).2) c
      = matchCount (w.zip s.game.word) c := by
    rw [pass1_snd]
    have hzz : w.zip ((w.zip s.game.word).map (fun p =>
        if p.2 = p.1 then LetterValidity.correct else LetterValidity.incorrect)) =
        ((w.zip s.game.word).map Prod.fst).zip ((w.zip s.game.word).map (fun p =>
        if p.2 = p.1 then LetterValidity.correct else LetterValidity.incorrect)) := by
      rw [hw2]
    rw [hzz, markedPairCount_map_eq]
  have hq1 : (pass1 (letterCount s.game.word) (w.zip s.game.word)).1 c
      = s.game.word.count c - matchCount (w.zip s.game.word) c := by
    rw [pass1_fst]
    rfl
  have hle := matchCount_zip_le w s.game.word c
  rw [hin, hq1] at key
  omega

theorem eval_valid_exact (s : WordleSession) (w : Word) (i : Nat) (c : Char)
    (hwi : w[i]? = some c) (hti : s.game.word[i]? = some c) :
    (s.eval_valid w)[i]? = some LetterValidity.correct := by
  simp only [WordleSession.eval_valid]
  have hps : (w.zip s.game.word)[i]? = some (c, c) :=
    List.getElem?_zip_eq_some.mpr ⟨hwi, hti⟩
  have hr1 : (pass1 (letterCount s.game.word) (w.zip s.game.word)).2[i]? =
      some LetterValidity.correct := by
    rw [pass1_snd, List.getElem?_map, hps]
    simp
  have hzz : (w.zip (pass1 (letterCount s.game.word) (w.zip s.game.word)).2)[i]? =
      some (c, LetterValidity.correct) :=
    List.getElem?_zip_eq_some.mpr ⟨hwi, hr1⟩
  exact pass2_preserve _ _ _ i c LetterValidity.correct hzz (by simp)

theorem eval_valid_self (s : WordleSession) :
    s.eval_valid s.game.word =
      List.replicate s.game.word.length LetterValidity.correct := by
  simp only [WordleSession.eval_valid]
  have hzip : s.game.word.zip s.game.word = s.game.word.map (fun a => (a, a)) := by
    have h := List.zip_map' (fun a => a) (fun a => a) s.game.word
    simpa using h
  have hsnd : (pass1 (letterCount s.game.word) (s.game.word.zip s.game.word)).2 =
      List.replicate s.game.word.length LetterValidity.correct := by
    rw [pass1_snd, hzip, List.map_map]
    have hcomp : ((fun p : Char × Char => if p.2 = p.1 then LetterValidity.correct
        else LetterValidity.incorrect) ∘ fun a => (a, a)) =
        fun _ : Char => LetterValidity.correct := by
      funext a
      simp [Function.comp]
    rw [hcomp, List.map_const']
  rw [hsnd]
  have hall : ∀ p ∈ s.game.word.zip (List.replicate s.game.word.length LetterValidity.correct),
      p.2 ≠ LetterValidity.incorrect := by
    intro p hp
    obtain ⟨a, v⟩ := p
    have hv := (List.of_mem_zip hp).2
    have h2 := List.eq_of_mem_replicate hv
    rw [h2]
    simp
  rw [pass2_of_marks _ _ _ hall, List.map_snd_zip]
  rw [List.length_replicate]

/-! ### Characterization of eval and guess -/

theorem eval_eq_ok_iff (s : WordleSession) (w : Word) (r : List LetterValidity) :
    s.eval w = GuessResult.ok r ↔
      w.length = s.game.word_len ∧
      s.guesses.any (fun p => decide (p.1 = w)) = false ∧
      binarySearch s.game.word_list w = true ∧
      r = s.eval_valid w := by
  unfold WordleSession.eval
  by_cases h1 : w.length ≠ s.game.word_len
  · rw [if_pos h1]
    simp [h1]
  · rw [if_neg h1]
    push_neg at h1
    by_cases h2 : s.guesses.any (fun p => decide (p.1 = w)) = true
    · rw [if_pos h2]
      simp [h1, h2]
    · rw [Bool.not_eq_true] at h2
      rw [if_neg (show ¬s.guesses.any (fun p => decide (p.1 = w)) = true by simp [h2])]
      by_cases h3 : binarySearch s.game.word_list w = false
      · rw [if_pos h3]
        simp [h1, h2, h3]
      · rw [if_neg h3]
        have h3' : binarySearch s.game.word_list w = true := by
          rcases Bool.eq_false_or_eq_true (binarySearch s.game.word_list w) with hb | hb
          · exact hb
          · exact absurd hb h3
        constructor
        · intro h
          exact ⟨h1, h2, h3', (GuessResult.ok.inj h).symm⟩
        · rintro ⟨-, -, -, hr⟩
          rw [hr]

/-! ### Totality of the checked evaluation -/

theorem pass1Checked_eq : ∀ (g : Word) (t : Word) (i : Nat) (cnt : Char → Nat),
    i + g.length ≤ t.length →
    (∀ c, matchCount (g.zip (t.drop i)) c ≤ cnt c) →
    pass1Checked t i cnt g = some (pass1 cnt (g.zip (t.drop i)))
  | [], t, i, cnt, _, _ => by simp [pass1Checked, pass1]
  | c :: gs, t, i, cnt, hlen, hcnt => by
    have hi : i < t.length := by
      simp only [List.length_cons] at hlen
      omega
    have hget : t[i]? = some t[i] := List.getElem?_eq_getElem hi
    have hdrop : t.drop i = t[i] :: t.drop (i + 1) := List.drop_eq_getElem_cons hi
    have hlen' : (i + 1) + gs.length ≤ t.length := by
      simp only [List.length_cons] at hlen
      omega
    by_cases htc : t[i] = c
    · have hcc := hcnt c
      rw [hdrop, List.zip_cons_cons, matchCount_cons] at hcc
      have he1 : (if t[i] = c ∧ c = c then 1 else 0) = 1 := by simp [htc]
      rw [he1] at hcc
      have hne : ¬cnt c = 0 := by omega
      have hrec := pass1Checked_eq gs t (i + 1) (decr cnt c) hlen' ?_
      · simp only [pass1Checked, hget]
        rw [if_pos htc, if_neg hne, hrec]
        rw [hdrop, List.zip_cons_cons]
        have hp1 : pass1 cnt ((c, t[i]) :: gs.zip (t.drop (i + 1))) =
            ((pass1 (decr cnt c) (gs.zip (t.drop (i + 1)))).1,
             LetterValidity.correct :: (pass1 (decr cnt c) (gs.zip (t.drop (i + 1)))).2) := by
          simp [pass1, htc]
        rw [hp1]
      · intro d
        have hd := hcnt d
        rw [hdrop, List.zip_cons_cons, matchCount_cons] at hd
        by_cases hdc : d = c
        · subst hdc
          have he : (if t[i] = d ∧ d = d then 1 else 0) = 1 := by simp [htc]
          rw [he] at hd
          have hdecr : decr cnt d d = cnt d - 1 := by simp [decr]
          rw [hdecr]
          omega
        · have hncd : ¬c = d := fun hx => hdc hx.symm
          have he : (if t[i] = c ∧ c = d then 1 else 0) = 0 := by simp [hncd]
          rw [he] at hd
          have hdecr : decr cnt c d = cnt d := by simp [decr, hdc]
          rw [hdecr]
          omega
    · have hrec := pass1Checked_eq gs t (i + 1) cnt hlen' ?_
      · simp only [pass1Checked, hget]
        rw [if_neg htc, hrec]
        rw [hdrop, List.zip_cons_cons]
        have hp1 : pass1 cnt ((c, t[i]) :: gs.zip (t.drop (i + 1))) =
            ((pass1 cnt (gs.zip (t.drop (i + 1)))).1,
             LetterValidity.incorrect :: (pass1 cnt (gs.zip (t.drop (i + 1)))).2) := by
          simp [pass1, htc]
        rw [hp1]
      · intro d
        have hd := hcnt d
        rw [hdrop, List.zip_cons_cons, matchCount_cons] at hd
        have he : (if t[i] = c ∧ c = d then 1 else 0) = 0 := by simp [htc]
        rw [he] at hd
        omega

/-! ### Reachability invariant -/

theorem reach_strong_invariant (g : WordleGame) (s : WordleSession) (r : Option GameResult)
    (hpos : 0 < g.max_guesses) (h : Reach g s r) :
    s.game = g ∧ s.guesses.length ≤ g.max_guesses ∧
      (s.guesses.length = g.max_guesses →
        r = some GameResult.win ∨ r = some GameResult.outOfGuesses) := by
  induction h with
  | init =>
    refine ⟨rfl, Nat.zero_le _, fun h0 => ?_⟩
    exfalso
    have h0' : 0 = g.max_guesses := h0
    omega
  | step s r w hreach hnw hno ih =>
    obtain ⟨hgame, hle, hterm⟩ := ih
    have hmg : s.game.max_guesses = g.max_guesses := by rw [hgame]
    have hlt : s.guesses.length < g.max_guesses := by
      rcases Nat.lt_or_ge s.guesses.length g.max_guesses with hx | hx
      · exact hx
      · rcases hterm (le_antisymm hle hx) with ht | ht
        · exact absurd ht hnw
        · exact absurd ht hno
    cases heval : s.eval w with
    | ok v =>
      by_cases hww : s.game.word = w
      · have hg : s.guess w = (GuessOutcome.ok GameResult.win,
            { game := s.game, guesses := s.guesses ++ [(w, v)] }) := by
          simp [WordleSession.guess, heval, hww]
        rw [hg]
        refine ⟨hgame, ?_, fun _ => Or.inl rfl⟩
        simp only [List.length_append, List.length_cons, List.length_nil]
        omega
      · by_cases hmax : s.guesses.length + 1 = s.game.max_guesses
        · have hg : s.guess w = (GuessOutcome.ok GameResult.outOfGuesses,
              { game := s.game, guesses := s.guesses ++ [(w, v)] }) := by
            simp [WordleSession.guess, heval, hww, hmax]
          rw [hg]
          refine ⟨hgame, ?_, fun _ => Or.inr rfl⟩
          simp only [List.length_append, List.length_cons, List.length_nil]
          omega
        · have hg : s.guess w = (GuessOutcome.ok GameResult.cont,
              { game := s.game, guesses := s.guesses ++ [(w, v)] }) := by
            simp [WordleSession.guess, heval, hww, hmax]
          rw [hg]
          refine ⟨hgame, ?_, fun h0 => ?_⟩
          · simp only [List.length_append, List.length_cons, List.length_nil]
            omega
          · exfalso
            simp only [List.length_append, List.length_cons, List.length_nil] at h0
            omega
    | notInDict =>
      have hg : s.guess w = (GuessOutcome.err GuessResult.notInDict, s) := by
        simp [WordleSession.guess, heval]
      rw [hg]
      exact ⟨hgame, hle, fun h0 => hterm h0⟩
    | alreadyUsed =>
      have hg : s.guess w = (GuessOutcome.err GuessResult.alreadyUsed, s) := by
        simp [WordleSession.guess, heval]
      rw [hg]
      exact ⟨hgame, hle, fun h0 => hterm h0⟩
    | invalid =>
      have hg : s.guess w = (GuessOutcome.err GuessResult.invalid, s) := by
        simp [WordleSession.guess, heval]
      rw [hg]
      exact ⟨hgame, hle, fun h0 => hterm h0⟩

/-! ### Claim theorems -/

/-- C1: for every target word and every accepted guess, in the marks
produced by evaluation, for every letter the number of positions marked
`correct` or `wrongPos` whose guessed letter is that letter never exceeds
the number of its occurrences in the target word; moreover every position
where the guessed letter equals the target letter at that position is
marked `correct`. -/
theorem eval_accepted_marks_sound (s : WordleSession) (w : Word)
    (r : List LetterValidity)
    (ht : s.game.word.length = s.game.word_len)
    (h : s.eval w = GuessResult.ok r) :
    (∀ c : Char, markedCount w r c ≤ s.game.word.count c) ∧
    (∀ (i : Nat) (c : Char), w[i]? = some c → s.game.word[i]? = some c →
      r[i]? = some LetterValidity.correct) := by
  obtain ⟨hlen, _, _, hr⟩ := (eval_eq_ok_iff s w r).mp h
  subst hr
  constructor
  · intro c
    exact eval_valid_marked_le s w (by rw [hlen, ht]) c
  · intro i c hwi hti
    exact eval_valid_exact s w i c hwi hti

theorem eval_accepted_marks_sound_witness :
    sessionAbaba.game.word.length = sessionAbaba.game.word_len ∧
    sessionAbaba.eval ['b','a','b','a','b'] = GuessResult.ok
      [LetterValidity.wrongPos, LetterValidity.wrongPos, LetterValidity.wrongPos,
       LetterValidity.wrongPos, LetterValidity.incorrect] ∧
    markedCount ['b','a','b','a','b']
      [LetterValidity.wrongPos, LetterValidity.wrongPos, LetterValidity.wrongPos,
       LetterValidity.wrongPos, LetterValidity.incorrect] 'b' ≤
      sessionAbaba.game.word.count 'b' :=
  ⟨by decide, by decide,
   (eval_accepted_marks_sound sessionAbaba ['b','a','b','a','b']
     [LetterValidity.wrongPos, LetterValidity.wrongPos, LetterValidity.wrongPos,
      LetterValidity.wrongPos, LetterValidity.incorrect]
     (by decide) (by decide)).1 'b'⟩

/-- C2: for every accepted guess the outcome is decided in priority
order: a guess equal to the target yields `win` (with all-`correct`
marks) even when it is the last allowed guess; otherwise, if the history
length after appending equals `max_guesses`, the outcome is
`outOfGuesses`; otherwise it is `cont`. -/
theorem guess_outcome_priority (s : WordleSession) (w : Word)
    (r : List LetterValidity) (h : s.eval w = GuessResult.ok r) :
    (w = s.game.word →
      (s.guess w).1 = GuessOutcome.ok GameResult.win ∧
      r = List.replicate w.length LetterValidity.correct) ∧
    (w ≠ s.game.word → s.guesses.length + 1 = s.game.max_guesses →
      (s.guess w).1 = GuessOutcome.ok GameResult.outOfGuesses) ∧
    (w ≠ s.game.word → s.guesses.length + 1 ≠ s.game.max_guesses →
      (s.guess w).1 = GuessOutcome.ok GameResult.cont) := by
  refine ⟨fun hw => ⟨?_, ?_⟩, fun hw hmax => ?_, fun hw hmax => ?_⟩
  · have hg : s.guess w = (GuessOutcome.ok GameResult.win,
        { game := s.game, guesses := s.guesses ++ [(w, r)] }) := by
      simp [WordleSession.guess, h, hw.symm]
    rw [hg]
  · obtain ⟨hlen, _, _, hr⟩ := (eval_eq_ok_iff s w r).mp h
    rw [hr, hw, eval_valid_self]
  · have hne : s.game.word ≠ w := fun he => hw he.symm
    have hg : s.guess w = (GuessOutcome.ok GameResult.outOfGuesses,
        { game := s.game, guesses := s.guesses ++ [(w, r)] }) := by
      simp [WordleSession.guess, h, hne, hmax]
    rw [hg]
  · have hne : s.game.word ≠ w := fun he => hw he.symm
    have hg : s.guess w = (GuessOutcome.ok GameResult.cont,
        { game := s.game, guesses := s.guesses ++ [(w, r)] }) := by
      simp [WordleSession.guess, h, hne, hmax]
    rw [hg]

theorem guess_outcome_priority_witness :
    sessionAaaaa.eval ['b','b','b','b','b'] = GuessResult.ok
      [LetterValidity.incorrect, LetterValidity.incorrect, LetterValidity.incorrect,
       LetterValidity.incorrect, LetterValidity.incorrect] ∧
    (sessionAaaaa.guess ['b','b','b','b','b']).1 = GuessOutcome.ok GameResult.cont :=
  ⟨by decide,
   (guess_outcome_priority sessionAaaaa ['b','b','b','b','b']
     [LetterValidity.incorrect, LetterValidity.incorrect, LetterValidity.incorrect,
      LetterValidity.incorrect, LetterValidity.incorrect] (by decide)).2.2
     (by decide) (by decide)⟩

/-- C3: rejection reasons are checked in this exact order, first match
winning: wrong length, then already guessed, then not in the dictionary;
otherwise the guess is accepted. -/
theorem eval_rejection_precedence (s : WordleSession) (w : Word)
    (hs : List.Pairwise wordLe s.game.word_list) :
    (w.length ≠ s.game.word_len → s.eval w = GuessResult.invalid) ∧
    (w.length = s.game.word_len → (∃ p ∈ s.guesses, p.1 = w) →
      s.eval w = GuessResult.alreadyUsed) ∧
    (w.length = s.game.word_len → (∀ p ∈ s.guesses, p.1 ≠ w) →
      w ∉ s.game.word_list → s.eval w = GuessResult.notInDict) ∧
    (w.length = s.game.word_len → (∀ p ∈ s.guesses, p.1 ≠ w) →
      w ∈ s.game.word_list → s.eval w = GuessResult.ok (s.eval_valid w)) := by
  refine ⟨fun h1 => ?_, fun h1 h2 => ?_, fun h1 h2 h3 => ?_, fun h1 h2 h3 => ?_⟩
  · unfold WordleSession.eval
    rw [if_pos h1]
  · unfold WordleSession.eval
    rw [if_neg (show ¬w.length ≠ s.game.word_len by simp [h1])]
    have hany : s.guesses.any (fun p => decide (p.1 = w)) = true := by
      rw [List.any_eq_true]
      obtain ⟨p, hp, hpe⟩ := h2
      exact ⟨p, hp, by simp [hpe]⟩
    rw [if_pos hany]
  · unfold WordleSession.eval
    rw [if_neg (show ¬w.length ≠ s.game.word_len by simp [h1])]
    have hany : s.guesses.any (fun p => decide (p.1 = w)) = false := by
      rw [List.any_eq_false]
      intro p hp
      simp [h2 p hp]
    rw [if_neg (show ¬s.guesses.any (fun p => decide (p.1 = w)) = true by simp [hany])]
    have hbs : binarySearch s.game.word_list w = false := by
      rcases Bool.eq_false_or_eq_true (binarySearch s.game.word_list w) with hb | hb
      · exact absurd ((binarySearch_eq_true_iff s.game.word_list w hs).mp hb) h3
      · exact hb
    rw [if_pos hbs]
  · unfold WordleSession.eval
    rw [if_neg (show ¬w.length ≠ s.game.word_len by simp [h1])]
    have hany : s.guesses.any (fun p => decide (p.1 = w)) = false := by
      rw [List.any_eq_false]
      intro p hp
      simp [h2 p hp]
    rw [if_neg (show ¬s.guesses.any (fun p => decide (p.1 = w)) = true by simp [hany])]
    have hbs : binarySearch s.game.word_list w = true :=
      (binarySearch_eq_true_iff s.game.word_list w hs).mpr h3
    rw [if_neg (show ¬binarySearch s.game.word_list w = false by simp [hbs])]

theorem eval_rejection_precedence_witness :
    List.Pairwise wordLe sessionAaaaa.game.word_list ∧
    sessionAaaaa.eval ['c','c','c','c','c'] = GuessResult.notInDict :=
  ⟨by decide,
   (eval_rejection_precedence sessionAaaaa ['c','c','c','c','c'] (by decide)).2.2.1
     (by decide) (by decide) (by decide)⟩

/-- C4: a rejected guess (wrong length, already guessed or not in the
dictionary) leaves the session completely unchanged and reports the
rejection reason; no record is appended. -/
theorem guess_rejected_preserves_state (s : WordleSession) (w : Word)
    (h : s.eval w = GuessResult.invalid ∨ s.eval w = GuessResult.alreadyUsed ∨
         s.eval w = GuessResult.notInDict) :
    s.guess w = (GuessOutcome.err (s.eval w), s) := by
  unfold WordleSession.guess
  rcases h with h | h | h <;> rw [h]

theorem guess_rejected_preserves_state_witness :
    sessionAaaaa.eval ['x'] = GuessResult.invalid ∧
    sessionAaaaa.guess ['x'] = (GuessOutcome.err (sessionAaaaa.eval ['x']), sessionAaaaa) :=
  ⟨by decide, guess_rejected_preserves_state sessionAaaaa ['x'] (Or.inl (by decide))⟩

/-- C5: for target `"ababa"` and accepted guess `"babab"`, evaluation
yields exactly `[wrongPos, wrongPos, wrongPos, wrongPos, incorrect]`:
the target has three a and two b, the guess two a and three b, and the
last b of the guess exceeds the remaining b budget. -/
theorem eval_ababa_babab :
    sessionAbaba.game.word.count 'a' = 3 ∧
    sessionAbaba.game.word.count 'b' = 2 ∧
    (['b','a','b','a','b'] : Word).count 'a' = 2 ∧
    (['b','a','b','a','b'] : Word).count 'b' = 3 ∧
    sessionAbaba.eval ['b','a','b','a','b'] = GuessResult.ok
      [LetterValidity.wrongPos, LetterValidity.wrongPos, LetterValidity.wrongPos,
       LetterValidity.wrongPos, LetterValidity.incorrect] := by
  refine ⟨by decide, by decide, by decide, by decide, by decide⟩

/-- C6: for every guess passing the length check, the sequence of marks
produced by evaluation has length exactly `word_len`. -/
theorem eval_valid_marks_length (s : WordleSession) (w : Word)
    (hw : w.length = s.game.word_len)
    (ht : s.game.word.length = s.game.word_len) :
    (s.eval_valid w).length = s.game.word_len := by
  rw [eval_valid_length s w (by rw [hw, ht])]
  exact hw

theorem eval_valid_marks_length_witness :
    (['b','a','b','a','b'] : Word).length = sessionAbaba.game.word_len ∧
    (sessionAbaba.eval_valid ['b','a','b','a','b']).length = sessionAbaba.game.word_len :=
  ⟨by decide,
   eval_valid_marks_length sessionAbaba ['b','a','b','a','b'] (by decide) (by decide)⟩

/-- C7: in every session reachable from a fresh session by a driving
loop that stops after the first terminal result, the invariant
`history.length ≤ max_guesses` holds (with the positive guess budget
required by the data model). -/
theorem reach_history_le_max (g : WordleGame) (s : WordleSession) (r : Option GameResult)
    (hpos : 0 < g.max_guesses) (h : Reach g s r) :
    s.guesses.length ≤ g.max_guesses :=
  (reach_strong_invariant g s r hpos h).2.1

theorem reach_history_le_max_witness :
    0 < gameAaaaa.max_guesses ∧
    (WordleSession.new gameAaaaa).guesses.length ≤ gameAaaaa.max_guesses :=
  ⟨by decide, reach_history_le_max gameAaaaa _ none (by decide) Reach.init⟩

/-- C8: the game factory fails exactly when the word source yields zero
words; every non-empty word list produces a game definition. -/
theorem from_config_none_iff (lines : List Word) (pick mg : Nat) :
    WordleGame.from_config lines pick mg = none ↔ lines = [] := by
  unfold WordleGame.from_config
  by_cases h : lines.isEmpty
  · rw [if_pos h]
    rw [List.isEmpty_iff] at h
    simp [h]
  · rw [if_neg h]
    rw [List.isEmpty_iff] at h
    simp [h]

/-- C9: under the precondition that target and guess have the same
character count (as the length check guarantees for single-byte words),
the checked evaluation — which returns `none` on the panics of pass 1,
i.e. a failing `nth(i).unwrap()` or a `usize` underflow of a letter
count — always succeeds and agrees with the evaluation. -/
theorem evalValidChecked_total (s : WordleSession) (w : Word)
    (hw : w.length = s.game.word.length) :
    evalValidChecked s.game.word w = some (s.eval_valid w) := by
  unfold evalValidChecked
  have h := pass1Checked_eq w s.game.word 0 (letterCount s.game.word) (by omega)
    (fun c => by simpa [letterCount] using matchCount_zip_le w s.game.word c)
  rw [List.drop_zero] at h
  rw [h]
  simp only [WordleSession.eval_valid]

theorem evalValidChecked_total_witness :
    (['b','a','b','a','b'] : Word).length = sessionAbaba.game.word.length ∧
    evalValidChecked sessionAbaba.game.word ['b','a','b','a','b'] =
      some (sessionAbaba.eval_valid ['b','a','b','a','b']) :=
  ⟨by decide, evalValidChecked_total sessionAbaba ['b','a','b','a','b'] (by decide)⟩

/-- C10: with `max_guesses = 0` a session never reports `outOfGuesses`:
after an accepted guess the history length is at least one, which never
equals zero, so every accepted non-winning guess returns `cont`. -/
theorem guess_no_outOfGuesses_when_max_zero (s : WordleSession) (w : Word)
    (h0 : s.game.max_guesses = 0) :
    (s.guess w).1 ≠ GuessOutcome.ok GameResult.outOfGuesses ∧
    (∀ r, s.eval w = GuessResult.ok r → w ≠ s.game.word →
      (s.guess w).1 = GuessOutcome.ok GameResult.cont) := by
  constructor
  · cases heval : s.eval w with
    | ok v =>
      by_cases hww : s.game.word = w
      · have hg : s.guess w = (GuessOutcome.ok GameResult.win,
            { game := s.game, guesses := s.guesses ++ [(w, v)] }) := by
          simp [WordleSession.guess, heval, hww]
        rw [hg]
        simp
      · have hmax : ¬(s.guesses.length + 1 = s.game.max_guesses) := by omega
        have hg : s.guess w = (GuessOutcome.ok GameResult.cont,
            { game := s.game, guesses := s.guesses ++ [(w, v)] }) := by
          simp [WordleSession.guess, heval, hww, hmax]
        rw [hg]
        simp
    | notInDict =>
      have hg : s.guess w = (GuessOutcome.err GuessResult.notInDict, s) := by
        simp [WordleSession.guess, heval]
      rw [hg]
      simp
    | alreadyUsed =>
      have hg : s.guess w = (GuessOutcome.err GuessResult.alreadyUsed, s) := by
        simp [WordleSession.guess, heval]
      rw [hg]
      simp
    | invalid =>
      have hg : s.guess w = (GuessOutcome.err GuessResult.invalid, s) := by
        simp [WordleSession.guess, heval]
      rw [hg]
      simp
  · intro r heval hww
    have hne : s.game.word ≠ w := fun he => hww he.symm
    have hmax : ¬(s.guesses.length + 1 = s.game.max_guesses) := by omega
    have hg : s.guess w = (GuessOutcome.ok GameResult.cont,
        { game := s.game, guesses := s.guesses ++ [(w, r)] }) := by
      simp [WordleSession.guess, heval, hne, hmax]
    rw [hg]

theorem guess_no_outOfGuesses_when_max_zero_witness :
    sessionZero.game.max_guesses = 0 ∧
    (sessionZero.guess ['b','b','b','b','b']).1 = GuessOutcome.ok GameResult.cont :=
  ⟨by decide,
   (guess_no_outOfGuesses_when_max_zero sessionZero ['b','b','b','b','b'] (by decide)).2
     [LetterValidity.incorrect, LetterValidity.incorrect, LetterValidity.incorrect,
      LetterValidity.incorrect, LetterValidity.incorrect]
     (by decide) (by decide)⟩

end WordleRust
